import Mathlib

/-!
Verification development for the wot-arduino JSON component
(`JSON.cpp` / `JSON.h`): a shallow embedding of the lexer, the
recursive-descent parser, the fixed node pool, the typed accessors and
the serializer, together with theorems about the embedded definitions.

Input buffers are byte lists (`List Nat`, each entry one byte value);
the C pointer/length cursor of the lexer is embedded as an offset into
the immutable buffer plus the remaining-length counter, exactly as the
source maintains them.  The collaborator classes `AvlNode` (ordered
map) and `HashTable` (symbol interning), whose sources are not part of
this component, are modelled from the specification of their
interfaces.  All recursion is structural so that every definition
evaluates inside the kernel.
-/

namespace WotJson

/-- Byte classified as whitespace, as by C `isspace` (space, \t, \n, \v, \f, \r). -/
def c_isspace (c : Nat) : Bool := c == 32 || (9 ≤ c && c ≤ 13)

/-- Byte classified as a decimal digit, as by C `isdigit`. -/
def c_isdigit (c : Nat) : Bool := 48 ≤ c && c ≤ 57

/-- The value tags of `Json_Tag` (the `.cpp` also handles an `Unused_t` tag,
absent from the stale header's enum). -/
inductive Json_Tag where
  | Object_t | Array_t | String_t | Unsigned_t | Signed_t | Float_t
  | Boolean_t | Null_t | Unused_t
deriving Repr, DecidableEq

/-- The token kinds of `Json_Token`. -/
inductive Json_Token where
  | Error_token | String_token | Colon_token | Comma_token
  | Object_start_token | Object_stop_token | Array_start_token | Array_stop_token
  | Float_token | Unsigned_token | Signed_token | Null_token | True_token | False_token
deriving Repr, DecidableEq

/-! ## Ordered map collaborator (`AvlNode`)

Modelled from the spec: the Ordered Map collaborator (`AvlNode`) is a
balanced tree keyed by a signed integer (`AvlKey`), mapping to an
opaque value pointer; it supports `insert`, exact-key `find`,
find-maximum-key (`last`), and in-order (key-ascending) traversal with
a per-entry visitor (`apply`).  Keys are unique per map.  The tree is
embedded as a key-ascending association list; value pointers (always
`JSON *` here) are embedded as node-pool indices. -/

/-- Map keys: C `AvlKey`, a signed integer. -/
def AvlKey := Int
deriving DecidableEq, LT, Repr

namespace AvlNode

/-- Modelled from the spec: `AvlNode::insert_key` — insert under a key,
keeping keys unique and traversal order key-ascending (an existing
binding of the same key is replaced). -/
def insert_key : List (Int × Nat) → Int → Nat → List (Int × Nat)
  | [], k, v => [(k, v)]
  | (k', v') :: rest, k, v =>
    if k < k' then (k, v) :: (k', v') :: rest
    else if k = k' then (k, v) :: rest
    else (k', v') :: insert_key rest k v

/-- Modelled from the spec: `AvlNode::find_key` — exact-key lookup,
returning the stored value pointer or the null pointer (`none`). -/
def find_key : List (Int × Nat) → Int → Option Nat
  | [], _ => none
  | (k', v') :: rest, k => if k = k' then some v' else find_key rest k

/-- Modelled from the spec: `AvlNode::last` — the entry with the largest
key, or empty for the empty map.  (The source dereferences the returned
node pointer with `->get_value()` even for an empty container; the
optional result models the interface's `(key, value) | empty` answer.) -/
def last (m : List (Int × Nat)) : Option (Int × Nat) := m.getLast?

/-- Modelled from the spec: `AvlNode::apply` — in-order (key-ascending)
traversal applying a visitor to each entry; in this embedding the
visitor returns the text it would print and `apply` concatenates it. -/
def apply (m : List (Int × Nat)) (f : Int × Nat → String) : String :=
  String.join (m.map f)

end AvlNode

/-! ## Symbol table collaborator (`HashTable`) -/

/-- Modelled from the spec: `JSON_SYMBOL_BASE` (defined in `core.h`, not
part of this component) — the reserved base value at which interned
symbol ids start; the spec requires only that object map keys (negated
ids) stay below zero, i.e. that the base is positive. -/
def JSON_SYMBOL_BASE : Nat := 1

namespace HashTable

/-- Modelled from the spec: `HashTable::get_symbol` — interns a text
slice to a small integer id: identical text maps to the same id within
one table; unseen text is assigned the current counter value, which is
then incremented.  (The table's own fixed capacity is not modelled; no
claim exercises table exhaustion.) -/
def get_symbol (table : List (List Nat × Nat)) (text : List Nat) (symcount : Nat) :
    Nat × List (List Nat × Nat) × Nat :=
  match table.find? (fun e => e.1 == text) with
  | some e => (e.2, table, symcount)
  | none => (symcount, (text, symcount) :: table, symcount + 1)

end HashTable

/-! ## Lexer -/

/-- The byte a C read of `buf[i]` yields: the buffer byte in bounds; a
read past the end of the buffer is undefined behaviour in the source
and is represented by the out-of-band value 256 (no claim depends on
the value of such a read, only on whether it happens). -/
def byteAt (buf : List Nat) (i : Nat) : Nat := buf.getD i 256

/-- `JSON::Lexer`: the cursor (`src` embedded as offset `off` into the
immutable buffer `buf`, plus remaining-length counter `len`), the token
view (`token_src` as offset `tokOff`, `token_len`), the number payloads
and the symbol table. -/
structure Lexer where
  buf : List Nat
  off : Nat
  len : Nat
  tokOff : Nat := 0
  tokLen : Nat := 0
  unsigned_num : Nat := 0
  signed_num : Int := 0
  float_bytes : List Nat := []
  table : List (List Nat × Nat) := []
deriving Repr, DecidableEq

/-- `JSON::Lexer::peek_byte`: the current byte if any input remains, else 256. -/
def Lexer.peek_byte (lx : Lexer) : Nat :=
  if lx.len > 0 then byteAt lx.buf lx.off else 256

/-- `JSON::Lexer::next_byte`: advance the cursor by one byte if any input remains. -/
def Lexer.next_byte (lx : Lexer) : Lexer :=
  if lx.len > 0 then { lx with off := lx.off + 1, len := lx.len - 1 } else lx

/-- The whitespace-skipping loop shared by `get_token` and
`end_of_array`, with an explicit structural bound: a whitespace byte
implies `len > 0` (end of input peeks as 256), and each step lowers
`len` by one, so running the loop with bound `lx.len` computes exactly
the C loop's result. -/
def Lexer.skip_space_n : Nat → Lexer → Lexer
  | 0, lx => lx
  | n+1, lx => if c_isspace lx.peek_byte then Lexer.skip_space_n n lx.next_byte else lx

/-- The whitespace-skipping loop at its exact bound. -/
def Lexer.skip_space (lx : Lexer) : Lexer := Lexer.skip_space_n lx.len lx

/-- `JSON::Lexer::end_of_array`: skip whitespace and test — without
consuming — whether the next byte is `]`. -/
def Lexer.end_of_array (lx : Lexer) : Bool × Lexer :=
  let lx := lx.skip_space
  (lx.peek_byte == 93, lx)

/-- The scanning loop of `JSON::Lexer::get_string`, with an explicit
structural bound: the loop consumes one byte per iteration and stops
when `len` reaches zero, so bound `lx.len` computes exactly the C
loop's result. -/
def Lexer.get_string_n : Nat → Lexer → Json_Token × Lexer
  | 0, lx => if lx.len > 0 then (.Error_token, lx) else (.Error_token, lx)
  | n+1, lx =>
    if lx.len > 0 then
      let c := byteAt lx.buf lx.off
      let lx := { lx with off := lx.off + 1, len := lx.len - 1 }
      if c = 34 then (.String_token, lx)
      else Lexer.get_string_n n { lx with tokLen := lx.tokLen + 1 }
    else (.Error_token, lx)

/-- `JSON::Lexer::get_string`: consume the opening quote, record the
token view at the following byte, then scan to the next `"` (returning
`String_token`) or to the end of input (returning `Error_token`). -/
def Lexer.get_string (lx : Lexer) : Json_Token × Lexer :=
  let lx := lx.next_byte
  Lexer.get_string_n lx.len { lx with tokOff := lx.off, tokLen := 0 }

/-- Index of the first `"` byte of a byte sequence, if any (used to
specify what `get_string`'s scanning loop computes). -/
def quote_index : List Nat → Option Nat
  | [] => none
  | c :: rest => if c = 34 then some 0 else (quote_index rest).map (· + 1)

/-- `JSON::Lexer::get_special`: recognize the literals `null`, `true`,
`false`.  The source advances `src` past the literal but executes
`length += 4` (resp. `+= 5`) on its remaining-length counter. -/
def Lexer.get_special (lx : Lexer) (c : Nat) : Json_Token × Lexer :=
  if c = 110 then
    if 4 ≤ lx.len && byteAt lx.buf (lx.off+1) == 117
        && byteAt lx.buf (lx.off+2) == 108 && byteAt lx.buf (lx.off+3) == 108 then
      (.Null_token, { lx with off := lx.off + 4, len := lx.len + 4 })
    else (.Error_token, lx)
  else if c = 116 then
    if 4 ≤ lx.len && byteAt lx.buf (lx.off+1) == 114
        && byteAt lx.buf (lx.off+2) == 117 && byteAt lx.buf (lx.off+3) == 101 then
      (.True_token, { lx with off := lx.off + 4, len := lx.len + 4 })
    else (.Error_token, lx)
  else if c = 102 then
    if 5 ≤ lx.len && byteAt lx.buf (lx.off+1) == 97
        && byteAt lx.buf (lx.off+2) == 108 && byteAt lx.buf (lx.off+3) == 115
        && byteAt lx.buf (lx.off+4) == 101 then
      (.False_token, { lx with off := lx.off + 5, len := lx.len + 5 })
    else (.Error_token, lx)
  else (.Error_token, lx)

/-- The digit-consuming loops of `get_number` (`while (isdigit(c))`),
with an explicit structural bound: a digit byte implies `len > 0`, and
each step lowers `len` by one, so bound `lx.len` computes exactly the C
loop's result.  Returns the cursor after the run and the incremented
digit counter. -/
def Lexer.digits_n : Nat → Lexer → Nat → Lexer × Nat
  | 0, lx, d => (lx, d)
  | n+1, lx, d =>
    if c_isdigit lx.peek_byte then Lexer.digits_n n lx.next_byte (d+1) else (lx, d)

/-- A digit run at its exact bound. -/
def Lexer.digits (lx : Lexer) (d : Nat) : Lexer × Nat := Lexer.digits_n lx.len lx d

/-- The decimal value of the leading digit run of a byte sequence. -/
def digit_run_value : List Nat → Nat → Nat
  | [], acc => acc
  | c :: rest, acc => if c_isdigit c then digit_run_value rest (acc * 10 + (c - 48)) else acc

/-- The value `sscanf("%u")` converts from the numeral lexemes
`get_number` hands it (a digit run).  The source scans from the raw
`token_src` pointer and relies on the byte after the numeral to stop
the scan, which can over-read an unterminated buffer (noted in the
spec); the conversion is modelled on the in-buffer suffix. -/
def sscanf_u (bs : List Nat) : Nat := digit_run_value bs 0

/-- The value `sscanf("%d")` converts from the numeral lexemes
`get_number` hands it (`-` followed by a digit run); same over-read
caveat as `sscanf_u`. -/
def sscanf_d (bs : List Nat) : Int :=
  match bs with
  | 45 :: rest => - (digit_run_value rest 0 : Int)
  | _ => (digit_run_value bs 0 : Int)

/-- The tail of `JSON::Lexer::get_number` after the second digit run and
the optional exponent marker: optional `-`, a digit run into `e`, the
`d|e` zero-digit check, then the three-way classification.  The
`%f` conversion of `sscanf` is host floating point and is not modelled;
the Float payload records the in-buffer bytes at `token_src` that the
conversion reads from. -/
def Lexer.get_number_finish (lx : Lexer) (negative real : Bool) (d : Nat) :
    Json_Token × Lexer :=
  let lx := if lx.peek_byte = 45 then lx.next_byte else lx
  let (lx, e) := lx.digits 0
  if d = 0 ∧ e = 0 then (.Error_token, lx)
  else if real then (.Float_token, { lx with float_bytes := lx.buf.drop lx.tokOff })
  else if negative then (.Signed_token, { lx with signed_num := sscanf_d (lx.buf.drop lx.tokOff) })
  else (.Unsigned_token, { lx with unsigned_num := sscanf_u (lx.buf.drop lx.tokOff) })

/-- `JSON::Lexer::get_number`: record the token start, consume an
optional `-`, an optional `.`, a digit run, an optional `.`, a second
digit run, then (checking `d` is nonzero at an exponent marker) the
exponent tail, classifying Float / Signed / Unsigned. -/
def Lexer.get_number (lx0 : Lexer) (c0 : Nat) : Json_Token × Lexer :=
  let lx := { lx0 with tokOff := lx0.off, tokLen := 0 }
  let (negative, lx) := if c0 = 45 then (true, lx.next_byte) else (false, lx)
  let (real, lx) := if lx.peek_byte = 46 then (true, lx.next_byte) else (false, lx)
  let (lx, d) := lx.digits 0
  let (real, lx) := if lx.peek_byte = 46 then (true, lx.next_byte) else (real, lx)
  let (lx, d) := lx.digits d
  if lx.peek_byte = 101 ∨ lx.peek_byte = 69 then
    if d = 0 then (.Error_token, lx)
    else lx.next_byte.get_number_finish negative true d
  else lx.get_number_finish negative real d

/-- `JSON::Lexer::get_token`: skip whitespace, then dispatch on the next
byte to a punctuation token, `get_string`, `get_number`, or
`get_special`. -/
def Lexer.get_token (lx : Lexer) : Json_Token × Lexer :=
  let lx := lx.skip_space
  let c := lx.peek_byte
  if c = 58 then (.Colon_token, lx.next_byte)
  else if c = 44 then (.Comma_token, lx.next_byte)
  else if c = 123 then (.Object_start_token, lx.next_byte)
  else if c = 125 then (.Object_stop_token, lx.next_byte)
  else if c = 91 then (.Array_start_token, lx.next_byte)
  else if c = 93 then (.Array_stop_token, lx.next_byte)
  else if c = 34 then lx.get_string
  else if c = 45 ∨ c = 46 ∨ c_isdigit c then lx.get_number c
  else lx.get_special c

/-! ## Value nodes and the node pool -/

/-- The `js_union` payload of a node.  The source stores these in one C
union whose members alias; this embedding keeps the member that was
last written, which is the only member the source reads under a
matching tag.  `str` is the borrowed pointer into the input buffer,
embedded as an offset; `number` is the Float payload, recording the
in-buffer bytes the host `sscanf("%f")` conversion read from (the
floating-point value itself is host arithmetic and is not modelled; no
claim depends on it); `object` is the ordered-map handle used by both
Object and Array nodes. -/
inductive Variant where
  | str (off : Nat)
  | number (bs : List Nat)
  | u (n : Nat)
  | i (n : Int)
  | truth (b : Bool)
  | object (m : List (Int × Nat))
deriving Repr, DecidableEq

/-- A `JSON` node: the source packs the tag into the low 4 bits of
`taglen` and the string length into the remaining high bits
(`set_tag` / `set_str_length` each preserve the other field), so the
pair is embedded as two independent fields. -/
structure Node where
  tag : Json_Tag := .Object_t
  strLen : Nat := 0
  variant : Variant := .object []
deriving Repr, DecidableEq

/-- A node slot holding the all-zero bit pattern written by the pool's
`memset`: `taglen = 0` decodes to tag `Object_t` and string length 0,
and the zeroed union reads as a null map pointer. -/
def zeroNode : Node := {}

/-- The static pool state of class `JSON`: `json_pool` (whether a buffer
has been installed, plus the slots), `json_pool_length` and
`json_pool_size`. -/
structure Pool where
  hasPool : Bool := false
  poolLength : Nat := 0
  size : Nat := 0
  nodes : List Node := []
deriving Repr, DecidableEq

/-- `JSON::initialise_json_pool`: install a buffer of `size` node slots,
reset the allocation cursor and clear the buffer. -/
def initialise_json_pool (size : Nat) : Pool :=
  { hasPool := true, poolLength := size, size := 0,
    nodes := List.replicate size zeroNode }

/-- Read the node a `JSON *` (pool index) points to. -/
def getNode (p : Pool) (i : Nat) : Node := p.nodes.getD i zeroNode

/-- Write the node a `JSON *` (pool index) points to. -/
def setNode (p : Pool) (i : Nat) (n : Node) : Pool :=
  { p with nodes := p.nodes.set i n }

/-- Read the `variant.object` union member (the map handle of a
container node); the source only reads it under an Object/Array tag. -/
def nodeMap (n : Node) : List (Int × Nat) :=
  match n.variant with
  | .object m => m
  | _ => []

/-- `JSON::new_node`: if a pool is installed and the cursor is below
capacity, return the slot at the cursor — tag set to `Null_t`, number
member zeroed — and advance the cursor; otherwise return null. -/
def new_node (p : Pool) : Option Nat × Pool :=
  if p.hasPool && p.size < p.poolLength then
    let node := { getNode p p.size with tag := .Null_t, variant := .number [] }
    (some p.size, { setNode p p.size node with size := p.size + 1 })
  else (none, p)

/-- `JSON::new_float` (the Float payload records the bytes the `%f`
conversion read from, see `Variant.number`). -/
def new_float (p : Pool) (bs : List Nat) : Option Nat × Pool :=
  match new_node p with
  | (some i, p) => (some i, setNode p i { getNode p i with tag := .Float_t, variant := .number bs })
  | (none, p) => (none, p)

/-- `JSON::new_unsigned`. -/
def new_unsigned (p : Pool) (n : Nat) : Option Nat × Pool :=
  match new_node p with
  | (some i, p) => (some i, setNode p i { getNode p i with tag := .Unsigned_t, variant := .u n })
  | (none, p) => (none, p)

/-- `JSON::new_signed`. -/
def new_signed (p : Pool) (n : Int) : Option Nat × Pool :=
  match new_node p with
  | (some i, p) => (some i, setNode p i { getNode p i with tag := .Signed_t, variant := .i n })
  | (none, p) => (none, p)

/-- `JSON::new_boolean`. -/
def new_boolean (p : Pool) (b : Bool) : Option Nat × Pool :=
  match new_node p with
  | (some i, p) => (some i, setNode p i { getNode p i with tag := .Boolean_t, variant := .truth b })
  | (none, p) => (none, p)

/-- `JSON::new_null` (the tag is set; the union keeps the number member
`new_node` zeroed). -/
def new_null (p : Pool) : Option Nat × Pool :=
  match new_node p with
  | (some i, p) => (some i, setNode p i { getNode p i with tag := .Null_t })
  | (none, p) => (none, p)

/-- `JSON::new_string`: borrow the `(pointer, length)` view — no bytes
are copied; `set_str_length` stores the length. -/
def new_string (p : Pool) (off len : Nat) : Option Nat × Pool :=
  match new_node p with
  | (some i, p) =>
    (some i, setNode p i { getNode p i with tag := .String_t, variant := .str off, strLen := len })
  | (none, p) => (none, p)

/-- `JSON::new_object`: a container node with a null map handle. -/
def new_object (p : Pool) : Option Nat × Pool :=
  match new_node p with
  | (some i, p) => (some i, setNode p i { getNode p i with tag := .Object_t, variant := .object [] })
  | (none, p) => (none, p)

/-- `JSON::new_array`: a container node with a null map handle. -/
def new_array (p : Pool) : Option Nat × Pool :=
  match new_node p with
  | (some i, p) => (some i, setNode p i { getNode p i with tag := .Array_t, variant := .object [] })
  | (none, p) => (none, p)

/-! ## Typed accessors -/

/-- `JSON::retrieve_property`: under an Object tag, look the negated
symbol id up in the node's map; otherwise null. -/
def retrieve_property (p : Pool) (i : Nat) (symbol : Nat) : Option Nat :=
  let key : Int := - (symbol : Int)
  let n := getNode p i
  if n.tag = .Object_t then AvlNode.find_key (nodeMap n) key else none

/-- `JSON::retrieve_array_item`: under an Array tag, look the element
index up in the node's map; otherwise null. -/
def retrieve_array_item (p : Pool) (i : Nat) (index : Nat) : Option Nat :=
  let key : Int := (index : Int)
  let n := getNode p i
  if n.tag = .Array_t then AvlNode.find_key (nodeMap n) key else none

/-- `JSON::insert_property`: under an Object tag, insert the value under
the negated symbol id; otherwise do nothing. -/
def insert_property (p : Pool) (i : Nat) (symbol : Nat) (v : Nat) : Pool :=
  let key : Int := - (symbol : Int)
  let n := getNode p i
  if n.tag = .Object_t then
    setNode p i { n with variant := .object (AvlNode.insert_key (nodeMap n) key v) }
  else p

/-- `JSON::insert_array_item`: under an Array tag, insert the value
under the element index; otherwise do nothing. -/
def insert_array_item (p : Pool) (i : Nat) (index : Nat) (v : Nat) : Pool :=
  let key : Int := (index : Int)
  let n := getNode p i
  if n.tag = .Array_t then
    setNode p i { n with variant := .object (AvlNode.insert_key (nodeMap n) key v) }
  else p

/-! ## Parser

The C recursion (`parse_private` / `parse_object` / `parse_array` and
the two container loops) terminates because every loop iteration and
every recursive call consumes input; the embedding makes this explicit
with a structural fuel argument that every call decrements, and the
top-level `parse` supplies fuel ample for its input length.  Fuel
exhaustion yields the null result; no theorem below depends on the
behaviour at insufficient fuel. -/

mutual

/-- `JSON::parse_private`: read one token and dispatch on it; every
case of the dispatch switch returns, after which the source contains a
further token read and error check.  The control flow is embedded
exactly: `some r` is an executed `return r` inside the switch, and the
`none` arm is the code after the switch. -/
def parse_private : Nat → Lexer → Pool → Option Nat × Lexer × Pool
  | 0, lx, p => (none, lx, p)
  | fuel+1, lx, p =>
    let (token, lx) := lx.get_token
    match
      (match token with
       | .Object_start_token => some (parse_object fuel lx p)
       | .Array_start_token => some (parse_array fuel lx p)
       | .String_token =>
         some (let (r, p) := new_string p lx.tokOff lx.tokLen; (r, lx, p))
       | .Null_token => some (let (r, p) := new_null p; (r, lx, p))
       | .True_token => some (let (r, p) := new_boolean p true; (r, lx, p))
       | .False_token => some (let (r, p) := new_boolean p false; (r, lx, p))
       | .Float_token => some (let (r, p) := new_float p lx.float_bytes; (r, lx, p))
       | .Unsigned_token => some (let (r, p) := new_unsigned p lx.unsigned_num; (r, lx, p))
       | .Signed_token => some (let (r, p) := new_signed p lx.signed_num; (r, lx, p))
       | _ => some ((none, lx, p))) with
    | some r => r
    | none =>
      let (token2, lx2) := lx.get_token
      match token2 with
      | .Error_token => (none, lx2, p)
      | _ => (none, lx2, p)

/-- `JSON::parse_object`: allocate the object node, then run the
member loop starting from the first token.  (On pool exhaustion the
source would call `insert_property` through a null `object` pointer;
the embedding threads the optional pointer and only that call guards on
it — no theorem exercises parsing with an exhausted pool.) -/
def parse_object : Nat → Lexer → Pool → Option Nat × Lexer × Pool
  | 0, lx, p => (none, lx, p)
  | fuel+1, lx, p =>
    let symcount := JSON_SYMBOL_BASE
    let (object?, p) := new_object p
    let (token, lx) := lx.get_token
    parse_object_loop fuel object? symcount token lx p

/-- The `while (token != Error_token)` member loop of
`JSON::parse_object`: `}` finishes the object; otherwise a String key
is interned, `:` expected, a value parsed recursively and inserted
under the symbol, and `,` continues (`}` re-enters the loop head, which
finishes).  Falling out of the loop is the syntax-error return. -/
def parse_object_loop : Nat → Option Nat → Nat → Json_Token → Lexer → Pool →
    Option Nat × Lexer × Pool
  | 0, _, _, _, lx, p => (none, lx, p)
  | fuel+1, object?, symcount, token, lx, p =>
    if token = .Error_token then (none, lx, p)
    else if token = .Object_stop_token then (object?, lx, p)
    else if token ≠ .String_token then (none, lx, p)
    else
      let text := (lx.buf.drop lx.tokOff).take lx.tokLen
      let (symbol, table, symcount) := HashTable.get_symbol lx.table text symcount
      let lx := { lx with table := table }
      let (token, lx) := lx.get_token
      if token ≠ .Colon_token then (none, lx, p)
      else
        match parse_private fuel lx p with
        | (none, lx, p) => (none, lx, p)
        | (some v, lx, p) =>
          let p := match object? with
                   | some o => insert_property p o symbol v
                   | none => p
          let (token, lx) := lx.get_token
          if token = .Object_stop_token then
            parse_object_loop fuel object? symcount token lx p
          else if token ≠ .Comma_token then (none, lx, p)
          else
            let (token, lx) := lx.get_token
            parse_object_loop fuel object? symcount token lx p

/-- `JSON::parse_array`: allocate the array node; `end_of_array` (a
non-consuming peek) short-circuits the empty array, leaving the `]`
unconsumed; otherwise run the element loop from index 0. -/
def parse_array : Nat → Lexer → Pool → Option Nat × Lexer × Pool
  | 0, lx, p => (none, lx, p)
  | fuel+1, lx, p =>
    let (array?, p) := new_array p
    let (isEnd, lx) := lx.end_of_array
    if isEnd then (array?, lx, p)
    else parse_array_loop fuel array? 0 lx p

/-- The `for (;;)` element loop of `JSON::parse_array`: parse a value
recursively, insert it at the next sequential index, then `]` finishes
and `,` continues; anything else is the syntax-error return. -/
def parse_array_loop : Nat → Option Nat → Nat → Lexer → Pool →
    Option Nat × Lexer × Pool
  | 0, _, _, lx, p => (none, lx, p)
  | fuel+1, array?, index, lx, p =>
    match parse_private fuel lx p with
    | (none, lx, p) => (none, lx, p)
    | (some item, lx, p) =>
      let p := match array? with
               | some a => insert_array_item p a index item
               | none => p
      let (token, lx) := lx.get_token
      if token = .Array_stop_token then (array?, lx, p)
      else if token ≠ .Comma_token then (none, lx, p)
      else parse_array_loop fuel array? (index+1) lx p

end

/-- The dispatch switch of `JSON::parse_private` in isolation: the same
per-token cases, `some r` marking an executed `return r`. -/
def parse_dispatch (fuel : Nat) (token : Json_Token) (lx : Lexer) (p : Pool) :
    Option (Option Nat × Lexer × Pool) :=
  match token with
  | .Object_start_token => some (parse_object fuel lx p)
  | .Array_start_token => some (parse_array fuel lx p)
  | .String_token => some (let (r, p) := new_string p lx.tokOff lx.tokLen; (r, lx, p))
  | .Null_token => some (let (r, p) := new_null p; (r, lx, p))
  | .True_token => some (let (r, p) := new_boolean p true; (r, lx, p))
  | .False_token => some (let (r, p) := new_boolean p false; (r, lx, p))
  | .Float_token => some (let (r, p) := new_float p lx.float_bytes; (r, lx, p))
  | .Unsigned_token => some (let (r, p) := new_unsigned p lx.unsigned_num; (r, lx, p))
  | .Signed_token => some (let (r, p) := new_signed p lx.signed_num; (r, lx, p))
  | _ => some ((none, lx, p))

/-- `JSON::parse(src, length)`: build the lexer over the buffer and run
`parse_private` (with fuel ample for the input length; the C recursion
is bounded by the input since every token and loop iteration consumes
at least one byte). -/
def parse (src : List Nat) (length : Nat) (p : Pool) : Option Nat × Lexer × Pool :=
  parse_private (8 * (length + 2)) { buf := src, off := 0, len := length } p

/-! ## Serializer

The host `PRINT` sink is embedded by value: each printing function
returns the text it emits. -/

/-- `JSON::print_string`: a quote, the borrowed bytes verbatim (no
escaping), a quote. -/
def print_string (buf : List Nat) (off len : Nat) : String :=
  "\"" ++ String.mk (((buf.drop off).take len).map Char.ofNat) ++ "\""

/-- `JSON::print` for one node (structural fuel bounds the recursion
into container members; cyclic trees are constructible through the
public insert API, under which the C recursion does not terminate).
Container cases traverse the map with `AvlNode::apply`, passing as
context the value stored at the largest key (`AvlNode::last`).  The
Float case is the host's default float formatting
(`Print::print(float)`), which is not modelled; no claim depends on
it. -/
def printNode : Nat → List Nat → Pool → Nat → String
  | 0, _, _, _ => ""
  | fuel+1, buf, p, i =>
    let n := getNode p i
    match n.tag with
    | .Object_t =>
      let m := nodeMap n
      let context := (AvlNode.last m).map Prod.snd
      " \x7b " ++
        AvlNode.apply m (fun kv =>
          "  " ++ toString (-kv.1) ++ " : " ++ printNode fuel buf p kv.2 ++
            (if some kv.2 ≠ context then "," else "")) ++
        " \x7d "
    | .Array_t =>
      let m := nodeMap n
      let context := (AvlNode.last m).map Prod.snd
      " [ " ++
        AvlNode.apply m (fun kv =>
          printNode fuel buf p kv.2 ++ (if some kv.2 ≠ context then "," else "")) ++
        "] "
    | .String_t =>
      match n.variant with
      | .str off => print_string buf off n.strLen
      | _ => ""
    | .Unsigned_t =>
      match n.variant with
      | .u v => toString v
      | _ => ""
    | .Signed_t =>
      match n.variant with
      | .i v => toString v
      | _ => ""
    | .Float_t => ""
    | .Boolean_t =>
      match n.variant with
      | .truth b => if b then " true " else " false "
      | _ => ""
    | .Null_t => " null "
    | .Unused_t => ""

/-- `JSON::print_name_value`, the per-entry visitor for Object
traversal: two spaces, the negated key, a colon, the member's text,
then a comma unless the member's value pointer equals the context (the
value stored at the map's largest key). -/
def print_name_value (fuel : Nat) (buf : List Nat) (p : Pool)
    (kv : Int × Nat) (context : Option Nat) : String :=
  "  " ++ toString (-kv.1) ++ " : " ++ printNode fuel buf p kv.2 ++
    (if some kv.2 ≠ context then "," else "")

/-- `JSON::print_array_item`, the per-entry visitor for Array traversal:
the member's text, then a comma unless the member's value pointer
equals the context. -/
def print_array_item (fuel : Nat) (buf : List Nat) (p : Pool)
    (kv : Int × Nat) (context : Option Nat) : String :=
  printNode fuel buf p kv.2 ++ (if some kv.2 ≠ context then "," else "")

/-! ## Pool operation sequences

For the pool invariants, the API calls that touch the static pool state
between two initialisations are reified as an operation type: every
`new_*` constructor (each of which allocates through `new_node`) and
the two container inserts.  `run_op` discards the returned pointer and
keeps the state effect. -/

/-- One pool-touching API call. -/
inductive PoolOp where
  | opNewNode
  | opNewFloat (bs : List Nat)
  | opNewUnsigned (n : Nat)
  | opNewSigned (n : Int)
  | opNewBoolean (b : Bool)
  | opNewNull
  | opNewString (off len : Nat)
  | opNewObject
  | opNewArray
  | opInsertProperty (i symbol v : Nat)
  | opInsertArrayItem (i index v : Nat)
deriving Repr, DecidableEq

/-- The state effect of one pool-touching API call. -/
def run_op (op : PoolOp) (p : Pool) : Pool :=
  match op with
  | .opNewNode => (new_node p).2
  | .opNewFloat bs => (new_float p bs).2
  | .opNewUnsigned n => (new_unsigned p n).2
  | .opNewSigned n => (new_signed p n).2
  | .opNewBoolean b => (new_boolean p b).2
  | .opNewNull => (new_null p).2
  | .opNewString off len => (new_string p off len).2
  | .opNewObject => (new_object p).2
  | .opNewArray => (new_array p).2
  | .opInsertProperty i s v => insert_property p i s v
  | .opInsertArrayItem i idx v => insert_array_item p i idx v

/-- The state effect of a sequence of pool-touching API calls. -/
def run_ops (ops : List PoolOp) (p : Pool) : Pool := ops.foldl (fun p op => run_op op p) p

/-- `j` consecutive `new_node` calls. -/
def alloc_iter : Nat → Pool → Pool
  | 0, p => p
  | j+1, p => (new_node (alloc_iter j p)).2

/-! ## Theorems -/

/-- C1: the spec requires that no lexer operation ever reads a byte at
an offset beyond the declared buffer length, and in particular that
after recognizing a `null`/`true`/`false` literal the remaining-length
counter equals the number of unread bytes.  The code violates this:
`get_special` advances `src` past the literal but executes
`length += 4` (resp. `+= 5`) instead of decrementing.  Evaluated at the
failing input — the buffer `null` of declared length 4 — `get_token`
returns the `Null` token with the cursor at offset 4 (all 4 bytes
consumed, 0 unread) while the remaining-length counter reads 8; the
guard `length > 0` of the very next `peek_byte` therefore passes and
the source dereferences `src` at offset 4 ≥ 4, past the buffer. -/
theorem c1_literal_length_counter_bug :
    (Lexer.get_token { buf := [110,117,108,108], off := 0, len := 4 }).1
      = .Null_token ∧
    (Lexer.get_token { buf := [110,117,108,108], off := 0, len := 4 }).2.off = 4 ∧
    (Lexer.get_token { buf := [110,117,108,108], off := 0, len := 4 }).2.len = 8 ∧
    ([110,117,108,108] : List Nat).length = 4 ∧
    0 < (Lexer.get_token { buf := [110,117,108,108], off := 0, len := 4 }).2.len ∧
    ([110,117,108,108] : List Nat).length
      ≤ (Lexer.get_token { buf := [110,117,108,108], off := 0, len := 4 }).2.off := by
  decide

/-- C2 counterexample: the claim states that `parse("1.2.3")` returns
the null result; in fact it returns a non-null Float value — the
dispatch switch of `parse_private` returns before the trailing-token
check, so the numeral `1.2` parses and `.3` is never examined.  (The
bytes below spell `1.2.3`.) -/
theorem c2_counterexample :
    (parse [49,46,50,46,51] 5 (initialise_json_pool 8)).1 = some 0 ∧
    (getNode (parse [49,46,50,46,51] 5 (initialise_json_pool 8)).2.2 0).tag
      = .Float_t := by
  decide

/-- C2 (amended): of the four malformed inputs, `{"a":}`, `[1,2` and
`tru` are rejected by `parse` with the null result, while `1.2.3`
returns a non-null Float value (parsed from the prefix `1.2`, the
lexer stopping at offset 3 with `.3` unread), because trailing input
after a complete top-level value is never validated. -/
theorem c2_malformed_rejection :
    (parse [123,34,97,34,58,125] 6 (initialise_json_pool 8)).1 = none ∧
    (parse [91,49,44,50] 4 (initialise_json_pool 8)).1 = none ∧
    (parse [116,114,117] 3 (initialise_json_pool 8)).1 = none ∧
    ((parse [49,46,50,46,51] 5 (initialise_json_pool 8)).1 = some 0 ∧
     (getNode (parse [49,46,50,46,51] 5 (initialise_json_pool 8)).2.2 0).tag
       = .Float_t ∧
     (parse [49,46,50,46,51] 5 (initialise_json_pool 8)).2.1.off = 3 ∧
     (parse [49,46,50,46,51] 5 (initialise_json_pool 8)).2.1.len = 2) := by
  decide

/-- C3: the second token read and error check after the dispatch switch
of `parse_private` is unreachable: every case of the switch returns
(`parse_dispatch` always produces an executed return), so
`parse_private` returns exactly the result of the dispatch switch
alone; consequently a well-formed top-level value followed by trailing
garbage — e.g. the input `0 x` — is returned as that value (tag
Unsigned), with the lexer stopped after the value (offset 1) and the
trailing bytes never validated. -/
theorem c3_dead_trailing_check :
    (∀ (fuel : Nat) (token : Json_Token) (lx : Lexer) (p : Pool),
       (parse_dispatch fuel token lx p).isSome = true) ∧
    (∀ (fuel : Nat) (lx : Lexer) (p : Pool),
       parse_private (fuel+1) lx p
         = (parse_dispatch fuel (lx.get_token).1 (lx.get_token).2 p).getD
             (none, lx, p)) ∧
    ((parse [48,32,120] 3 (initialise_json_pool 8)).1 = some 0 ∧
     (getNode (parse [48,32,120] 3 (initialise_json_pool 8)).2.2 0).tag
       = .Unsigned_t ∧
     (parse [48,32,120] 3 (initialise_json_pool 8)).2.1.off = 1) := by
  refine ⟨?_, ?_, by decide⟩
  · intro fuel token lx p
    cases token <;> rfl
  · intro fuel lx p
    rcases h : lx.get_token with ⟨token, lx'⟩
    simp only [parse_private, h]
    cases token <;> simp [parse_dispatch]

/-- C5: `parse("{}")` yields a non-null Object with zero properties and
`parse("[]")` a non-null Array with zero elements, and printing each
empty container emits exactly `" { "` followed by `" } "`
(respectively `" [ "` followed by `"] "`) with nothing in between. -/
theorem c5_empty_containers :
    ((parse [123,125] 2 (initialise_json_pool 8)).1 = some 0 ∧
     (getNode (parse [123,125] 2 (initialise_json_pool 8)).2.2 0).tag = .Object_t ∧
     nodeMap (getNode (parse [123,125] 2 (initialise_json_pool 8)).2.2 0) = [] ∧
     printNode 5 [123,125] (parse [123,125] 2 (initialise_json_pool 8)).2.2 0
       = " \x7b " ++ " \x7d ") ∧
    ((parse [91,93] 2 (initialise_json_pool 8)).1 = some 0 ∧
     (getNode (parse [91,93] 2 (initialise_json_pool 8)).2.2 0).tag = .Array_t ∧
     nodeMap (getNode (parse [91,93] 2 (initialise_json_pool 8)).2.2 0) = [] ∧
     printNode 5 [91,93] (parse [91,93] 2 (initialise_json_pool 8)).2.2 0
       = " [ " ++ "] ") := by
  decide

/-- The whitespace-skipping loop leaves the buffer unchanged, only
moves the cursor forward, and every byte it steps over is whitespace. -/
theorem skip_space_n_spec (n : Nat) :
    ∀ lx : Lexer,
      (Lexer.skip_space_n n lx).buf = lx.buf ∧
      lx.off ≤ (Lexer.skip_space_n n lx).off ∧
      (∀ j, lx.off ≤ j → j < (Lexer.skip_space_n n lx).off →
        c_isspace (byteAt lx.buf j) = true) := by
  induction n with
  | zero =>
    intro lx
    exact ⟨rfl, Nat.le_refl _, fun j h1 h2 => absurd h2 (by simp [Lexer.skip_space_n]; omega)⟩
  | succ n ih =>
    intro lx
    by_cases h : c_isspace lx.peek_byte = true
    · have hlen : 0 < lx.len := by
        by_contra hl
        have h0 : lx.len = 0 := by omega
        simp [Lexer.peek_byte, h0, c_isspace] at h
      have hpeek : lx.peek_byte = byteAt lx.buf lx.off := by
        simp [Lexer.peek_byte, hlen]
      have hnext : lx.next_byte = { lx with off := lx.off + 1, len := lx.len - 1 } := by
        simp [Lexer.next_byte, hlen]
      have hstep : Lexer.skip_space_n (n+1) lx = Lexer.skip_space_n n lx.next_byte := by
        simp [Lexer.skip_space_n, h]
      obtain ⟨hb, ho, hw⟩ := ih lx.next_byte
      have hoff : lx.next_byte.off = lx.off + 1 := by rw [hnext]
      have hbuf : lx.next_byte.buf = lx.buf := by rw [hnext]
      refine ⟨by rw [hstep, hb, hbuf], by rw [hstep]; omega, ?_⟩
      intro j h1 h2
      rw [hstep] at h2
      rcases Nat.eq_or_lt_of_le h1 with he | hlt
      · rw [← he, ← hpeek]; exact h
      · have := hw j (by omega) h2
        rwa [hbuf] at this
    · have hstep : Lexer.skip_space_n (n+1) lx = lx := by
        simp [Lexer.skip_space_n]
        intro hc
        exact absurd hc h
      exact ⟨by rw [hstep], by rw [hstep], fun j h1 h2 => by rw [hstep] at h2; omega⟩

/-- C9: `end_of_array` answers true exactly when the next
non-whitespace byte is `]`, consuming only whitespace (never the `]`
itself); consequently for `parse("[[],1]")` the inner empty array
leaves its `]` unconsumed, the enclosing array loop reads that `]` as
its own closing delimiter, and the parse returns a non-null Array
containing exactly one element (the empty Array) with the lexer
stopped at offset 3 — the trailing text `,1]` never parsed. -/
theorem c9_end_of_array_nonconsuming :
    (∀ lx : Lexer,
       (lx.end_of_array).2 = lx.skip_space ∧
       ((lx.end_of_array).1 = true ↔ (lx.skip_space).peek_byte = 93)) ∧
    (∀ (lx : Lexer) (j : Nat), lx.off ≤ j → j < (lx.skip_space).off →
       c_isspace (byteAt lx.buf j) = true) ∧
    ((parse [91,91,93,44,49,93] 6 (initialise_json_pool 8)).1 = some 0 ∧
     (getNode (parse [91,91,93,44,49,93] 6 (initialise_json_pool 8)).2.2 0).tag
       = .Array_t ∧
     nodeMap (getNode (parse [91,91,93,44,49,93] 6 (initialise_json_pool 8)).2.2 0)
       = [(0, 1)] ∧
     (getNode (parse [91,91,93,44,49,93] 6 (initialise_json_pool 8)).2.2 1).tag
       = .Array_t ∧
     nodeMap (getNode (parse [91,91,93,44,49,93] 6 (initialise_json_pool 8)).2.2 1)
       = [] ∧
     (parse [91,91,93,44,49,93] 6 (initialise_json_pool 8)).2.1.off = 3 ∧
     (parse [91,91,93,44,49,93] 6 (initialise_json_pool 8)).2.1.len = 3 ∧
     ([91,91,93,44,49,93] : List Nat).drop 3 = [44,49,93]) := by
  refine ⟨?_, ?_, by decide⟩
  · intro lx
    exact ⟨rfl, by simp [Lexer.end_of_array]⟩
  · intro lx j h1 h2
    exact (skip_space_n_spec lx.len lx).2.2 j h1 h2

/-- C9 witness: on the buffer `" ]"` the skipped byte (a space) is
whitespace, by the theorem applied at that input. -/
theorem c9_end_of_array_nonconsuming_witness :
    c_isspace (byteAt [32,93] 0) = true :=
  c9_end_of_array_nonconsuming.2.1 { buf := [32,93], off := 0, len := 2 } 0
    (by decide) (by decide)

/-- C10: a wrong-tag accessor call is a safe no-op: on any node whose
tag is not Object, `retrieve_property` returns null and
`insert_property` leaves the pool unchanged; on any node whose tag is
not Array, `retrieve_array_item` returns null and `insert_array_item`
leaves the pool unchanged. -/
theorem c10_wrong_tag_noop :
    (∀ (p : Pool) (i s v : Nat), (getNode p i).tag ≠ .Object_t →
       retrieve_property p i s = none ∧ insert_property p i s v = p) ∧
    (∀ (p : Pool) (i idx v : Nat), (getNode p i).tag ≠ .Array_t →
       retrieve_array_item p i idx = none ∧ insert_array_item p i idx v = p) := by
  constructor
  · intro p i s v h
    constructor
    · simp [retrieve_property, h]
    · simp [insert_property, h]
  · intro p i idx v h
    constructor
    · simp [retrieve_array_item, h]
    · simp [insert_array_item, h]

/-- C10 witness: at the Null node allocated by `new_null` in a fresh
pool, both wrong-tag property accessors are no-ops. -/
theorem c10_wrong_tag_noop_witness :
    (getNode (new_null (initialise_json_pool 2)).2 0).tag ≠ .Object_t ∧
    retrieve_property (new_null (initialise_json_pool 2)).2 0 5 = none ∧
    insert_property (new_null (initialise_json_pool 2)).2 0 5 7
      = (new_null (initialise_json_pool 2)).2 :=
  ⟨by decide,
   (c10_wrong_tag_noop.1 (new_null (initialise_json_pool 2)).2 0 5 7 (by decide)).1,
   (c10_wrong_tag_noop.1 (new_null (initialise_json_pool 2)).2 0 5 7 (by decide)).2⟩

/-- State facts about one `new_node` call: the pool flag, capacity and
slot count are unchanged, the cursor moves up by at most one, a cursor
within capacity stays within capacity, and the call succeeds exactly
when a pool is installed and the cursor is below capacity. -/
theorem new_node_state (p : Pool) :
    (new_node p).2.hasPool = p.hasPool ∧
    (new_node p).2.poolLength = p.poolLength ∧
    (new_node p).2.nodes.length = p.nodes.length ∧
    p.size ≤ (new_node p).2.size ∧
    (new_node p).2.size ≤ p.size + 1 ∧
    (p.size ≤ p.poolLength → (new_node p).2.size ≤ p.poolLength) ∧
    (new_node p).1.isSome = (p.hasPool && decide (p.size < p.poolLength)) := by
  unfold new_node setNode
  split
  case isTrue h =>
    refine ⟨rfl, rfl, by simp [List.length_set], Nat.le_succ p.size, Nat.le_refl _,
            ?_, by simp [h]⟩
    intro _
    show p.size + 1 ≤ p.poolLength
    rcases Bool.and_eq_true_iff.mp h with ⟨_, h2⟩
    exact of_decide_eq_true h2
  case isFalse h =>
    exact ⟨rfl, rfl, rfl, Nat.le_refl _, Nat.le_succ p.size, fun hh => hh, by simp [h]⟩

/-- A successful guard makes `new_node` return the cursor slot and
advance the cursor by one. -/
theorem new_node_alloc (q : Pool)
    (h : (q.hasPool && decide (q.size < q.poolLength)) = true) :
    (new_node q).1 = some q.size ∧ (new_node q).2.hasPool = q.hasPool ∧
    (new_node q).2.size = q.size + 1 ∧ (new_node q).2.poolLength = q.poolLength := by
  unfold new_node
  rw [if_pos h]
  exact ⟨rfl, rfl, rfl, rfl⟩

/-- A failed guard makes `new_node` return null and leave the pool
untouched. -/
theorem new_node_fail (q : Pool)
    (h : ¬ ((q.hasPool && decide (q.size < q.poolLength)) = true)) :
    new_node q = (none, q) := by
  unfold new_node
  rw [if_neg h]

/-- State facts about any single pool-touching API call: flag, capacity
and slot count unchanged, the cursor non-decreasing by at most one, and
capacity never overrun. -/
theorem run_op_state (op : PoolOp) (p : Pool) :
    (run_op op p).hasPool = p.hasPool ∧
    (run_op op p).poolLength = p.poolLength ∧
    (run_op op p).nodes.length = p.nodes.length ∧
    p.size ≤ (run_op op p).size ∧
    (run_op op p).size ≤ p.size + 1 ∧
    (p.size ≤ p.poolLength → (run_op op p).size ≤ p.poolLength) := by
  obtain ⟨g1, g2, g3, g4, g5, g6, _⟩ := new_node_state p
  cases op with
  | opNewNode => exact ⟨g1, g2, g3, g4, g5, g6⟩
  | opNewFloat bs =>
    simp only [run_op, new_float]
    rcases hn : new_node p with ⟨r, p'⟩
    rw [hn] at g1 g2 g3 g4 g5 g6
    cases r
    · exact ⟨g1, g2, g3, g4, g5, g6⟩
    · exact ⟨g1, g2, by simpa [setNode, List.length_set] using g3, g4, g5, g6⟩
  | opNewUnsigned n =>
    simp only [run_op, new_unsigned]
    rcases hn : new_node p with ⟨r, p'⟩
    rw [hn] at g1 g2 g3 g4 g5 g6
    cases r
    · exact ⟨g1, g2, g3, g4, g5, g6⟩
    · exact ⟨g1, g2, by simpa [setNode, List.length_set] using g3, g4, g5, g6⟩
  | opNewSigned n =>
    simp only [run_op, new_signed]
    rcases hn : new_node p with ⟨r, p'⟩
    rw [hn] at g1 g2 g3 g4 g5 g6
    cases r
    · exact ⟨g1, g2, g3, g4, g5, g6⟩
    · exact ⟨g1, g2, by simpa [setNode, List.length_set] using g3, g4, g5, g6⟩
  | opNewBoolean b =>
    simp only [run_op, new_boolean]
    rcases hn : new_node p with ⟨r, p'⟩
    rw [hn] at g1 g2 g3 g4 g5 g6
    cases r
    · exact ⟨g1, g2, g3, g4, g5, g6⟩
    · exact ⟨g1, g2, by simpa [setNode, List.length_set] using g3, g4, g5, g6⟩
  | opNewNull =>
    simp only [run_op, new_null]
    rcases hn : new_node p with ⟨r, p'⟩
    rw [hn] at g1 g2 g3 g4 g5 g6
    cases r
    · exact ⟨g1, g2, g3, g4, g5, g6⟩
    · exact ⟨g1, g2, by simpa [setNode, List.length_set] using g3, g4, g5, g6⟩
  | opNewString off len =>
    simp only [run_op, new_string]
    rcases hn : new_node p with ⟨r, p'⟩
    rw [hn] at g1 g2 g3 g4 g5 g6
    cases r
    · exact ⟨g1, g2, g3, g4, g5, g6⟩
    · exact ⟨g1, g2, by simpa [setNode, List.length_set] using g3, g4, g5, g6⟩
  | opNewObject =>
    simp only [run_op, new_object]
    rcases hn : new_node p with ⟨r, p'⟩
    rw [hn] at g1 g2 g3 g4 g5 g6
    cases r
    · exact ⟨g1, g2, g3, g4, g5, g6⟩
    · exact ⟨g1, g2, by simpa [setNode, List.length_set] using g3, g4, g5, g6⟩
  | opNewArray =>
    simp only [run_op, new_array]
    rcases hn : new_node p with ⟨r, p'⟩
    rw [hn] at g1 g2 g3 g4 g5 g6
    cases r
    · exact ⟨g1, g2, g3, g4, g5, g6⟩
    · exact ⟨g1, g2, by simpa [setNode, List.length_set] using g3, g4, g5, g6⟩
  | opInsertProperty i s v =>
    simp only [run_op, insert_property]
    split
    · exact ⟨rfl, rfl, by simp [setNode, List.length_set], Nat.le_refl _,
             Nat.le_succ p.size, fun h => h⟩
    · exact ⟨rfl, rfl, rfl, Nat.le_refl _, Nat.le_succ p.size, fun h => h⟩
  | opInsertArrayItem i idx v =>
    simp only [run_op, insert_array_item]
    split
    · exact ⟨rfl, rfl, by simp [setNode, List.length_set], Nat.le_refl _,
             Nat.le_succ p.size, fun h => h⟩
    · exact ⟨rfl, rfl, rfl, Nat.le_refl _, Nat.le_succ p.size, fun h => h⟩

/-- State facts about a sequence of pool-touching API calls: flag,
capacity and slot count unchanged, the cursor non-decreasing, and
capacity never overrun. -/
theorem run_ops_state (ops : List PoolOp) :
    ∀ p : Pool,
      (run_ops ops p).hasPool = p.hasPool ∧
      (run_ops ops p).poolLength = p.poolLength ∧
      (run_ops ops p).nodes.length = p.nodes.length ∧
      p.size ≤ (run_ops ops p).size ∧
      (p.size ≤ p.poolLength → (run_ops ops p).size ≤ p.poolLength) := by
  induction ops with
  | nil => exact fun p => ⟨rfl, rfl, rfl, Nat.le_refl _, fun h => h⟩
  | cons op ops ih =>
    intro p
    obtain ⟨a1, a2, a3, a4, a5, a6⟩ := run_op_state op p
    obtain ⟨b1, b2, b3, b4, b5⟩ := ih (run_op op p)
    have hstep : run_ops (op :: ops) p = run_ops ops (run_op op p) := rfl
    rw [hstep]
    refine ⟨by rw [b1, a1], by rw [b2, a2], by rw [b3, a3], Nat.le_trans a4 b4, ?_⟩
    intro h
    have hq : (run_op op p).size ≤ (run_op op p).poolLength := by
      rw [a2]; exact a6 h
    have := b5 hq
    rwa [a2] at this

/-- After `j ≤ K` consecutive allocations from a freshly initialised
pool of capacity `K`, a pool is installed, the cursor reads `j`, and
the capacity reads `K`. -/
theorem alloc_iter_state (K : Nat) :
    ∀ j : Nat, j ≤ K →
      (alloc_iter j (initialise_json_pool K)).hasPool = true ∧
      (alloc_iter j (initialise_json_pool K)).size = j ∧
      (alloc_iter j (initialise_json_pool K)).poolLength = K := by
  intro j
  induction j with
  | zero => exact fun _ => ⟨rfl, rfl, rfl⟩
  | succ j ih =>
    intro hj
    obtain ⟨h1, h2, h3⟩ := ih (by omega)
    have hguard : ((alloc_iter j (initialise_json_pool K)).hasPool &&
        decide ((alloc_iter j (initialise_json_pool K)).size
          < (alloc_iter j (initialise_json_pool K)).poolLength)) = true := by
      rw [h1, h2, h3]
      simp
      omega
    obtain ⟨_, k2, k3, k4⟩ := new_node_alloc _ hguard
    have hstep : alloc_iter (j+1) (initialise_json_pool K)
        = (new_node (alloc_iter j (initialise_json_pool K))).2 := rfl
    rw [hstep]
    exact ⟨by rw [k2, h1], by rw [k3, h2], by rw [k4, h3]⟩

/-- C6: for a pool initialised with capacity `K`, the allocation cursor
is monotonically non-decreasing across every sequence of pool-touching
API calls and never exceeds `K` (the slot buffer keeps exactly `K`
slots, so no slot beyond index `K-1` can be marked allocated); the
first `K` `new_node` calls each succeed, the `j`-th returning slot `j`,
and the `(K+1)`-th allocation attempt returns the null failure
result. -/
theorem c6_pool_invariants :
    (∀ (ops : List PoolOp) (p : Pool), p.size ≤ (run_ops ops p).size) ∧
    (∀ (K : Nat) (ops : List PoolOp),
       (run_ops ops (initialise_json_pool K)).size ≤ K ∧
       (run_ops ops (initialise_json_pool K)).nodes.length = K) ∧
    (∀ (K j : Nat), j < K →
       (new_node (alloc_iter j (initialise_json_pool K))).1 = some j) ∧
    (∀ K : Nat, (new_node (alloc_iter K (initialise_json_pool K))).1 = none) := by
  refine ⟨?_, ?_, ?_, ?_⟩
  · intro ops p
    exact (run_ops_state ops p).2.2.2.1
  · intro K ops
    obtain ⟨_, _, h3, _, h5⟩ := run_ops_state ops (initialise_json_pool K)
    constructor
    · exact h5 (by simp [initialise_json_pool])
    · rw [h3]
      simp [initialise_json_pool]
  · intro K j hj
    obtain ⟨h1, h2, h3⟩ := alloc_iter_state K j (by omega)
    have hguard : ((alloc_iter j (initialise_json_pool K)).hasPool &&
        decide ((alloc_iter j (initialise_json_pool K)).size
          < (alloc_iter j (initialise_json_pool K)).poolLength)) = true := by
      rw [h1, h2, h3]
      simp
      omega
    obtain ⟨k1, _, _, _⟩ := new_node_alloc _ hguard
    rw [k1, h2]
  · intro K
    obtain ⟨h1, h2, h3⟩ := alloc_iter_state K K (Nat.le_refl K)
    have hguard : ¬ (((alloc_iter K (initialise_json_pool K)).hasPool &&
        decide ((alloc_iter K (initialise_json_pool K)).size
          < (alloc_iter K (initialise_json_pool K)).poolLength)) = true) := by
      rw [h1, h2, h3]
      simp
    rw [new_node_fail _ hguard]

/-- C6 witness: in a pool of capacity 2, the second allocation (index
`j = 1 < 2`) succeeds and returns slot 1, by the theorem applied
there. -/
theorem c6_pool_invariants_witness :
    1 < 2 ∧ (new_node (alloc_iter 1 (initialise_json_pool 2))).1 = some 1 :=
  ⟨by decide, c6_pool_invariants.2.2.1 2 1 (by decide)⟩

/-- The map returned by `insert_key` answers `find_key` at the inserted
key with the inserted value. -/
theorem find_key_insert_key (m : List (Int × Nat)) (k : Int) (v : Nat) :
    AvlNode.find_key (AvlNode.insert_key m k v) k = some v := by
  induction m with
  | nil => simp [AvlNode.insert_key, AvlNode.find_key]
  | cons kv rest ih =>
    rcases kv with ⟨k', v'⟩
    simp only [AvlNode.insert_key]
    split
    · simp [AvlNode.find_key]
    · split
      · next h2 => simp [AvlNode.find_key, h2]
      · next h1 h2 => simp [AvlNode.find_key, h2, ih]

/-- Reading back a slot just written. -/
theorem getNode_setNode (p : Pool) (i : Nat) (n : Node) (h : i < p.nodes.length) :
    getNode (setNode p i n) i = n := by
  simp only [getNode, setNode]
  rw [List.getD_eq_getElem?_getD, List.getElem?_set_self (by simpa using h)]
  rfl

/-- C8: on an Object node, `insert_property` stores the value in the
node's map under the negated symbol id, and an immediate
`retrieve_property` under the same symbol returns exactly that value;
on an Array node, `insert_array_item` stores under the element index
(cast to a map key) and `retrieve_array_item` reads it back; symbol
keys (ids at or above the reserved base) are negative while index keys
are non-negative, so the two occupy disjoint sign ranges of the one
map-key space. -/
theorem c8_sign_partitioned_key_space :
    (∀ (p : Pool) (i s v : Nat),
       (getNode p i).tag = .Object_t → i < p.nodes.length →
       nodeMap (getNode (insert_property p i s v) i)
         = AvlNode.insert_key (nodeMap (getNode p i)) (-(s : Int)) v ∧
       retrieve_property (insert_property p i s v) i s = some v) ∧
    (∀ (p : Pool) (i idx v : Nat),
       (getNode p i).tag = .Array_t → i < p.nodes.length →
       nodeMap (getNode (insert_array_item p i idx v) i)
         = AvlNode.insert_key (nodeMap (getNode p i)) ((idx : Int)) v ∧
       retrieve_array_item (insert_array_item p i idx v) i idx = some v) ∧
    (∀ s : Nat, JSON_SYMBOL_BASE ≤ s → -(s : Int) < 0) ∧
    (∀ idx : Nat, (0 : Int) ≤ ((idx : Nat) : Int)) := by
  refine ⟨?_, ?_, ?_, fun idx => Int.natCast_nonneg idx⟩
  · intro p i s v ht hi
    have hins : insert_property p i s v
        = setNode p i { getNode p i with
            variant := .object (AvlNode.insert_key (nodeMap (getNode p i)) (-(s : Int)) v) } := by
      simp [insert_property, ht]
    have hget := getNode_setNode p i
      { getNode p i with
        variant := .object (AvlNode.insert_key (nodeMap (getNode p i)) (-(s : Int)) v) } hi
    constructor
    · rw [hins, hget]
      rfl
    · rw [hins]
      simp only [retrieve_property]
      rw [hget]
      rw [if_pos (show ({ getNode p i with
          variant := Variant.object
            (AvlNode.insert_key (nodeMap (getNode p i)) (-(s : Int)) v) } : Node).tag
            = Json_Tag.Object_t from ht)]
      exact find_key_insert_key _ _ _
  · intro p i idx v ht hi
    have hins : insert_array_item p i idx v
        = setNode p i { getNode p i with
            variant := .object (AvlNode.insert_key (nodeMap (getNode p i)) ((idx : Int)) v) } := by
      simp [insert_array_item, ht]
    have hget := getNode_setNode p i
      { getNode p i with
        variant := .object (AvlNode.insert_key (nodeMap (getNode p i)) ((idx : Int)) v) } hi
    constructor
    · rw [hins, hget]
      rfl
    · rw [hins]
      simp only [retrieve_array_item]
      rw [hget]
      rw [if_pos (show ({ getNode p i with
          variant := Variant.object
            (AvlNode.insert_key (nodeMap (getNode p i)) ((idx : Int)) v) } : Node).tag
            = Json_Tag.Array_t from ht)]
      exact find_key_insert_key _ _ _
  · intro s h
    simp only [JSON_SYMBOL_BASE] at h
    omega

/-- C8 witness: on the Object node allocated in a fresh pool, inserting
value 1 under symbol 3 and retrieving symbol 3 yields value 1, by the
theorem applied there. -/
theorem c8_sign_partitioned_key_space_witness :
    (getNode (new_object (initialise_json_pool 2)).2 0).tag = .Object_t ∧
    0 < (new_object (initialise_json_pool 2)).2.nodes.length ∧
    retrieve_property
      (insert_property (new_object (initialise_json_pool 2)).2 0 3 1) 0 3 = some 1 :=
  ⟨by decide, by decide,
   (c8_sign_partitioned_key_space.1 (new_object (initialise_json_pool 2)).2 0 3 1
     (by decide) (by decide)).2⟩

/-- A read within the buffer yields the buffer byte. -/
theorem byteAt_lt (buf : List Nat) (i : Nat) (h : i < buf.length) :
    byteAt buf i = buf[i] := by
  simp only [byteAt]
  rw [List.getD_eq_getElem?_getD, List.getElem?_eq_getElem h]
  rfl

/-- Exact behaviour of the scanning loop of `get_string` on a
well-formed cursor (`off + len = buffer length`, i.e. the counter
matches the unread suffix): run at bound `len`, the loop stops at the
first `"` of the unread suffix, returning a String token with the
cursor just past that quote and the accumulated token length advanced
by the quote's index; with no `"` in the suffix it consumes everything
and returns an Error token. -/
theorem get_string_n_spec (n : Nat) :
    ∀ lx : Lexer, lx.off + lx.len = lx.buf.length → n = lx.len →
      (∀ iq, quote_index (lx.buf.drop lx.off) = some iq →
        Lexer.get_string_n n lx
          = (.String_token,
             { lx with off := lx.off + (iq+1), len := lx.len - (iq+1),
                       tokLen := lx.tokLen + iq })) ∧
      (quote_index (lx.buf.drop lx.off) = none →
        Lexer.get_string_n n lx
          = (.Error_token,
             { lx with off := lx.off + lx.len, len := 0,
                       tokLen := lx.tokLen + lx.len })) := by
  induction n with
  | zero =>
    intro lx hwf hn
    have hlen : lx.len = 0 := hn.symm
    have hdrop : lx.buf.drop lx.off = [] := List.drop_eq_nil_of_le (by omega)
    constructor
    · intro iq hq
      rw [hdrop] at hq
      simp [quote_index] at hq
    · intro _
      rcases lx with ⟨buf, off, len, tokOff, tokLen, un, sn, fb, tb⟩
      simp only at hlen
      subst hlen
      simp [Lexer.get_string_n]
  | succ n ih =>
    intro lx hwf hn
    have hlen : 0 < lx.len := by omega
    have hoffb : lx.off < lx.buf.length := by omega
    have hdrop : lx.buf.drop lx.off = lx.buf[lx.off] :: lx.buf.drop (lx.off + 1) :=
      List.drop_eq_getElem_cons hoffb
    have hbyte : byteAt lx.buf lx.off = lx.buf[lx.off] := byteAt_lt _ _ hoffb
    by_cases h34 : lx.buf[lx.off] = 34
    · have hquote : quote_index (lx.buf.drop lx.off) = some 0 := by
        rw [hdrop]
        simp [quote_index, h34]
      constructor
      · intro iq hq
        rw [hquote] at hq
        have hiq : iq = 0 := by
          cases hq
          rfl
        subst hiq
        rcases lx with ⟨buf, off, len, tokOff, tokLen, un, sn, fb, tb⟩
        simp only at hlen hbyte h34
        simp [Lexer.get_string_n, hbyte, h34, hlen]
      · intro hq
        rw [hquote] at hq
        cases hq
    · have hquote : quote_index (lx.buf.drop lx.off)
          = (quote_index (lx.buf.drop (lx.off + 1))).map (· + 1) := by
        rw [hdrop]
        simp [quote_index, h34]
      have hstep : Lexer.get_string_n (n+1) lx
          = Lexer.get_string_n n
              { lx with off := lx.off + 1, len := lx.len - 1, tokLen := lx.tokLen + 1 } := by
        simp [Lexer.get_string_n, hlen, hbyte, h34]
      obtain ⟨ihs, ihn⟩ := ih
        { lx with off := lx.off + 1, len := lx.len - 1, tokLen := lx.tokLen + 1 }
        (by simp; omega) (by simp; omega)
      constructor
      · intro iq hq
        rw [hquote] at hq
        cases hsub : quote_index (lx.buf.drop (lx.off + 1)) with
        | none =>
          rw [hsub] at hq
          cases hq
        | some j =>
          rw [hsub] at hq
          have hiq : iq = j + 1 := by
            cases hq
            rfl
          subst hiq
          have hrec := ihs j (by simpa using hsub)
          rw [hstep, hrec]
          rcases lx with ⟨buf, off, len, tokOff, tokLen, un, sn, fb, tb⟩
          simp only at hlen ⊢
          refine congrArg _ ?_
          simp only [Lexer.mk.injEq, and_true, true_and]
          omega
      · intro hq
        rw [hquote] at hq
        cases hsub : quote_index (lx.buf.drop (lx.off + 1)) with
        | some j =>
          rw [hsub] at hq
          cases hq
        | none =>
          have hrec := ihn (by simpa using hsub)
          rw [hstep, hrec]
          rcases lx with ⟨buf, off, len, tokOff, tokLen, un, sn, fb, tb⟩
          simp only at hlen ⊢
          refine congrArg _ ?_
          simp only [Lexer.mk.injEq, and_true, true_and]
          omega

/-- `next_byte` does not change the buffer. -/
theorem next_byte_buf (lx : Lexer) : lx.next_byte.buf = lx.buf := by
  simp only [Lexer.next_byte]
  split <;> rfl

/-- `next_byte` preserves cursor well-formedness. -/
theorem next_byte_wf (lx : Lexer) (h : lx.off + lx.len = lx.buf.length) :
    lx.next_byte.off + lx.next_byte.len = lx.next_byte.buf.length := by
  simp only [Lexer.next_byte]
  split
  · simp
    omega
  · exact h

/-- `quote_index` finds the first quote: a `some` answer is an in-range
position holding byte 34 with no quote before it; a `none` answer means
no position holds byte 34. -/
theorem quote_index_spec :
    (∀ (bs : List Nat) (iq : Nat), quote_index bs = some iq →
       iq < bs.length ∧ bs[iq]? = some 34 ∧ ∀ j, j < iq → bs[j]? ≠ some 34) ∧
    (∀ bs : List Nat, quote_index bs = none → ∀ j : Nat, bs[j]? ≠ some 34) := by
  constructor
  · intro bs
    induction bs with
    | nil => intro iq hq; simp [quote_index] at hq
    | cons c rest ih =>
      intro iq hq
      by_cases h34 : c = 34
      · have : iq = 0 := by
          simp [quote_index, h34] at hq
          omega
        subst this
        exact ⟨by simp, by simp [h34], fun j hj => by omega⟩
      · simp only [quote_index, if_neg h34] at hq
        cases hsub : quote_index rest with
        | none => rw [hsub] at hq; cases hq
        | some j' =>
          rw [hsub] at hq
          have hiq : iq = j' + 1 := by
            cases hq
            rfl
          subst hiq
          obtain ⟨g1, g2, g3⟩ := ih j' hsub
          refine ⟨by simp; omega, by simpa using g2, ?_⟩
          intro j hj
          cases j with
          | zero => simp [h34]
          | succ j0 =>
            have := g3 j0 (by omega)
            simpa using this
  · intro bs
    induction bs with
    | nil => intro _ j; simp
    | cons c rest ih =>
      intro hq j
      by_cases h34 : c = 34
      · simp [quote_index, h34] at hq
      · simp only [quote_index, if_neg h34] at hq
        cases hsub : quote_index rest with
        | some j' => rw [hsub] at hq; cases hq
        | none =>
          cases j with
          | zero => simp [h34]
          | succ j0 => simpa using ih hsub j0

/-- C7 counterexample: the claim states that a `"` preceded by a
backslash does not terminate a string token; scanning the input
`"a\"b"` (bytes 34,97,92,34,98,34), `get_string` terminates the token
at the backslash-preceded quote: the returned String token's view is
offset 1 with length 2 (the bytes `a` and the backslash), not the
claimed length 4 run extending to the final quote. -/
theorem c7_counterexample :
    (Lexer.get_string { buf := [34,97,92,34,98,34], off := 0, len := 6 }).1
      = .String_token ∧
    (Lexer.get_string { buf := [34,97,92,34,98,34], off := 0, len := 6 }).2.tokOff = 1 ∧
    (Lexer.get_string { buf := [34,97,92,34,98,34], off := 0, len := 6 }).2.tokLen = 2 ∧
    byteAt [34,97,92,34,98,34] 2 = 92 ∧
    byteAt [34,97,92,34,98,34] 3 = 34 := by
  decide

/-- C7 (amended): for every well-formed cursor (remaining-length
counter equal to the unread suffix), `get_string` consumes the opening
quote and returns a String token whose `(token_src, token_len)` view
covers exactly the bytes strictly between the opening quote and the
first subsequent `"` — whether or not that quote is preceded by a
backslash, the scanner performing no escape processing — without
copying (the view is an offset/length pair into the original buffer);
if the input ends before a further `"` appears, it returns the Error
token with all input consumed.  (`quote_index` pins down "first
subsequent quote" via its specification conjuncts.) -/
theorem c7_string_token_view :
    (∀ (lx : Lexer) (iq : Nat),
       lx.off + lx.len = lx.buf.length →
       quote_index (lx.buf.drop lx.next_byte.off) = some iq →
       lx.get_string
         = (.String_token,
            { lx.next_byte with tokOff := lx.next_byte.off, tokLen := iq,
                                off := lx.next_byte.off + (iq + 1),
                                len := lx.next_byte.len - (iq + 1) })) ∧
    (∀ lx : Lexer,
       lx.off + lx.len = lx.buf.length →
       quote_index (lx.buf.drop lx.next_byte.off) = none →
       lx.get_string
         = (.Error_token,
            { lx.next_byte with tokOff := lx.next_byte.off,
                                tokLen := lx.next_byte.len,
                                off := lx.next_byte.off + lx.next_byte.len,
                                len := 0 })) ∧
    (∀ (bs : List Nat) (iq : Nat), quote_index bs = some iq →
       iq < bs.length ∧ bs[iq]? = some 34 ∧ ∀ j, j < iq → bs[j]? ≠ some 34) ∧
    (∀ bs : List Nat, quote_index bs = none → ∀ j : Nat, bs[j]? ≠ some 34) := by
  refine ⟨?_, ?_, quote_index_spec.1, quote_index_spec.2⟩
  · intro lx iq hwf hq
    have hwf1 := next_byte_wf lx hwf
    have hbuf1 := next_byte_buf lx
    simp only [Lexer.get_string]
    rcases hnb : lx.next_byte with ⟨buf1, off1, len1, tokOff1, tokLen1, un1, sn1, fb1, tb1⟩
    rw [hnb] at hwf1 hbuf1 hq
    simp only at hwf1 hbuf1 hq ⊢
    rw [← hbuf1] at hq
    have hmain := (get_string_n_spec len1
        ⟨buf1, off1, len1, off1, 0, un1, sn1, fb1, tb1⟩
        (by simpa using hwf1) rfl).1 iq (by simpa using hq)
    simp only at hmain
    rw [hmain]
    simp only [Prod.mk.injEq, Lexer.mk.injEq, and_true, true_and]
    omega
  · intro lx hwf hq
    have hwf1 := next_byte_wf lx hwf
    have hbuf1 := next_byte_buf lx
    simp only [Lexer.get_string]
    rcases hnb : lx.next_byte with ⟨buf1, off1, len1, tokOff1, tokLen1, un1, sn1, fb1, tb1⟩
    rw [hnb] at hwf1 hbuf1 hq
    simp only at hwf1 hbuf1 hq ⊢
    rw [← hbuf1] at hq
    have hmain := (get_string_n_spec len1
        ⟨buf1, off1, len1, off1, 0, un1, sn1, fb1, tb1⟩
        (by simpa using hwf1) rfl).2 (by simpa using hq)
    simp only at hmain
    rw [hmain]
    simp only [Prod.mk.injEq, Lexer.mk.injEq, and_true, true_and]
    omega

/-- C7 witness: on the buffer `"a"` (bytes 34,97,34) the amended
theorem applied at that input yields the String token with view offset
1, length 1 and the cursor past the closing quote. -/
theorem c7_string_token_view_witness :
    Lexer.get_string { buf := [34,97,34], off := 0, len := 3 }
      = (.String_token,
         { ({ buf := [34,97,34], off := 0, len := 3 } : Lexer).next_byte with
           tokOff := 1
           tokLen := 1
           off := 1 + (1 + 1)
           len := 2 - (1 + 1) }) :=
  c7_string_token_view.1 { buf := [34,97,34], off := 0, len := 3 } 1
    (by decide) (by decide)

/-- The last entry of a list is a member. -/
theorem mem_of_getLast?_eq (l : List (Int × Nat)) (a : Int × Nat)
    (h : l.getLast? = some a) : a ∈ l := by
  induction l with
  | nil => cases h
  | cons b t ih =>
    cases t with
    | nil =>
      simp only [List.getLast?_singleton, Option.some.injEq] at h
      simp [h]
    | cons c t2 =>
      rw [List.getLast?_cons_cons] at h
      exact List.mem_cons_of_mem b (ih h)

/-- In a key-ascending map, the last-traversed entry is exactly the
member with the maximum key. -/
theorem getLast_eq_iff_max :
    ∀ m : List (Int × Nat), m.Pairwise (fun a b => a.1 < b.1) →
      ∀ kv : Int × Nat, kv ∈ m →
      (m.getLast? = some kv ↔ ∀ x ∈ m, x.1 ≤ kv.1) := by
  intro m
  induction m with
  | nil => intro _ kv hkv; cases hkv
  | cons a rest ih =>
    intro hs kv hkv
    rcases List.pairwise_cons.mp hs with ⟨ha, hrest⟩
    cases rest with
    | nil =>
      have hkva : kv = a := by simpa using hkv
      subst hkva
      constructor
      · intro _ x hx
        have : x = kv := by simpa using hx
        simp [this]
      · intro _
        simp [List.getLast?_singleton]
    | cons b t =>
      have hlast : (a :: b :: t).getLast? = (b :: t).getLast? :=
        List.getLast?_cons_cons
      rcases List.mem_cons.mp hkv with hkva | hkv'
      · subst hkva
        constructor
        · intro h
          exfalso
          rw [hlast] at h
          have hmem : kv ∈ b :: t := mem_of_getLast?_eq _ _ h
          have := ha kv hmem
          omega
        · intro h
          exfalso
          have h1 := h b (by simp)
          have h2 := ha b (by simp)
          omega
      · have hiff := ih hrest kv hkv'
        rw [hlast, hiff]
        constructor
        · intro h x hx
          rcases List.mem_cons.mp hx with hxa | hx'
          · subst hxa
            have := ha kv hkv'
            omega
          · exact h x hx'
        · intro h x hx
          exact h x (List.mem_cons_of_mem a hx)

/-- With pairwise-distinct stored values, the serializer's context (the
value at the map's largest key) equals a member's value exactly when
that member is the last-traversed entry. -/
theorem last_value_eq_iff (m : List (Int × Nat))
    (hn : (m.map Prod.snd).Nodup) (kv : Int × Nat) (hkv : kv ∈ m) :
    (m.getLast?).map Prod.snd = some kv.2 ↔ m.getLast? = some kv := by
  constructor
  · intro h
    cases hl : m.getLast? with
    | none => rw [hl] at h; cases h
    | some l =>
      rw [hl] at h
      have hv : l.2 = kv.2 := by simpa using h
      have hlm : l ∈ m := mem_of_getLast?_eq _ _ hl
      have hlkv : l = kv := List.inj_on_of_nodup_map hn hlm hkv hv
      rw [hlkv]
  · intro h
    rw [h]
    rfl

/-- C4 counterexample: the claim states the separator is suppressed
exactly for the entry whose map key equals the map's maximum key and
for no other entry; but the source compares the entry's *value* pointer
with the value stored at the maximum key.  In an Object built through
the public API holding the same value node under the two keys −2 and
−1, the entry with key −2 — not the maximum key — is also printed with
its comma suppressed. -/
theorem c4_counterexample :
    AvlNode.last (nodeMap (getNode
        (insert_property (insert_property
          (new_null (new_object (initialise_json_pool 4)).2).2 0 2 1) 0 1 1) 0))
      = some (-1, 1) ∧
    ((-2 : Int), 1) ∈ nodeMap (getNode
        (insert_property (insert_property
          (new_null (new_object (initialise_json_pool 4)).2).2 0 2 1) 0 1 1) 0) ∧
    (-2 : Int) ≠ (-1 : Int) ∧
    print_name_value 1 []
        (insert_property (insert_property
          (new_null (new_object (initialise_json_pool 4)).2).2 0 2 1) 0 1 1)
        ((-2 : Int), 1)
        ((AvlNode.last (nodeMap (getNode
           (insert_property (insert_property
             (new_null (new_object (initialise_json_pool 4)).2).2 0 2 1) 0 1 1) 0))).map
          Prod.snd)
      = "  2 :  null " := by
  decide

/-- C4 (amended): serializing a non-empty Object or Array traverses the
map in ascending key order, emitting each member through its visitor;
the visitor appends a comma except when the member's stored value
equals the value stored at the map's maximum key — so when the stored
member values are pairwise distinct (as in any parser-built tree, where
every member is a fresh pool node), the separator is suppressed exactly
for the entry whose map key equals the map's maximum key and for no
other entry. -/
theorem c4_separator_on_max_key :
    ∀ (fuel : Nat) (buf : List Nat) (p : Pool) (i : Nat),
      nodeMap (getNode p i) ≠ [] →
      (nodeMap (getNode p i)).Pairwise (fun a b => a.1 < b.1) →
      ((nodeMap (getNode p i)).map Prod.snd).Nodup →
      (((getNode p i).tag = .Object_t →
          printNode (fuel+1) buf p i
            = " \x7b " ++ AvlNode.apply (nodeMap (getNode p i))
                (fun kv => print_name_value fuel buf p kv
                  ((AvlNode.last (nodeMap (getNode p i))).map Prod.snd)) ++ " \x7d ") ∧
       ((getNode p i).tag = .Array_t →
          printNode (fuel+1) buf p i
            = " [ " ++ AvlNode.apply (nodeMap (getNode p i))
                (fun kv => print_array_item fuel buf p kv
                  ((AvlNode.last (nodeMap (getNode p i))).map Prod.snd)) ++ "] ") ∧
       (∀ kv ∈ nodeMap (getNode p i),
          (print_name_value fuel buf p kv
              ((AvlNode.last (nodeMap (getNode p i))).map Prod.snd)
            = "  " ++ toString (-kv.1) ++ " : " ++ printNode fuel buf p kv.2 ++
                (if ∀ x ∈ nodeMap (getNode p i), x.1 ≤ kv.1 then "" else ",")) ∧
          (print_array_item fuel buf p kv
              ((AvlNode.last (nodeMap (getNode p i))).map Prod.snd)
            = printNode fuel buf p kv.2 ++
                (if ∀ x ∈ nodeMap (getNode p i), x.1 ≤ kv.1 then "" else ",")))) := by
  intro fuel buf p i hne hs hn
  refine ⟨?_, ?_, ?_⟩
  · intro ht
    simp only [printNode, print_name_value]
    rw [ht]
  · intro ht
    simp only [printNode, print_array_item]
    rw [ht]
  · intro kv hkv
    have hiff := (last_value_eq_iff (nodeMap (getNode p i)) hn kv hkv).trans
      (getLast_eq_iff_max (nodeMap (getNode p i)) hs kv hkv)
    have harm :
        (if some kv.2 ≠ (AvlNode.last (nodeMap (getNode p i))).map Prod.snd
           then "," else "")
          = (if ∀ x ∈ nodeMap (getNode p i), x.1 ≤ kv.1 then "" else ",") := by
      by_cases hmax : ∀ x ∈ nodeMap (getNode p i), x.1 ≤ kv.1
      · have hctx : (AvlNode.last (nodeMap (getNode p i))).map Prod.snd = some kv.2 :=
          hiff.mpr hmax
        rw [if_pos hmax, if_neg (fun hne2 => hne2 hctx.symm)]
      · have hctx : ¬ ((AvlNode.last (nodeMap (getNode p i))).map Prod.snd = some kv.2) :=
          fun h => hmax (hiff.mp h)
        rw [if_neg hmax, if_pos (fun h => hctx h.symm)]
    constructor
    · simp only [print_name_value]
      rw [harm]
    · simp only [print_array_item]
      rw [harm]

/-- C4 witness: in an Object with two distinct member values under keys
−2 and −1, the visitor for the max-key entry (−1) suppresses its comma,
by the theorem applied there. -/
theorem c4_separator_on_max_key_witness :
    print_name_value 1 []
        (insert_property (insert_property
          (new_null (new_null (new_object (initialise_json_pool 4)).2).2).2 0 2 1) 0 1 2)
        ((-1 : Int), 2)
        ((AvlNode.last (nodeMap (getNode
           (insert_property (insert_property
             (new_null (new_null (new_object (initialise_json_pool 4)).2).2).2 0 2 1)
             0 1 2) 0))).map Prod.snd)
      = "  " ++ toString (-(-1 : Int)) ++ " : "
          ++ printNode 1 []
               (insert_property (insert_property
                 (new_null (new_null (new_object (initialise_json_pool 4)).2).2).2 0 2 1)
                 0 1 2) 2
          ++ (if ∀ x ∈ nodeMap (getNode
                (insert_property (insert_property
                  (new_null (new_null (new_object (initialise_json_pool 4)).2).2).2 0 2 1)
                  0 1 2) 0), x.1 ≤ (-1 : Int) then "" else ",") :=
  ((c4_separator_on_max_key 1 []
      (insert_property (insert_property
        (new_null (new_null (new_object (initialise_json_pool 4)).2).2).2 0 2 1) 0 1 2)
      0 (by decide) (by decide) (by decide)).2.2 ((-1 : Int), 2) (by decide)).1

end WotJson
